import Mathlib

/-!
Verification of the pymarkart marker pipeline.

This file gives a shallow embedding of the algorithmic core of the
repository: marker extraction (extract_markers.py), orientation
estimation (find_orientations.py) and vector rendering
(create_image.py), over exact arithmetic (rational coordinates, real
trigonometry).  Python floats are modelled by rationals where the code
only does field arithmetic and comparisons, and by real numbers where
the code computes square roots and trigonometric functions.
-/

namespace PyMarkArt

/-- dto.Point: a point with x and y coordinates (dto.py). -/
structure Point where
  x : ℚ
  y : ℚ
deriving DecidableEq

/-- dto.Marker: a marker with position, radius and orientation (dto.py).
The orientation is an angle in radians; it is produced by atan2, hence
modelled as a real number. -/
structure Marker where
  position : Point
  radius : ℚ
  orientation : ℝ

/-! ### numpy argmin / argmax

numpy.argmin scans the array left to right and returns the first index
attaining the minimum; `argmin_upto f n` computes that index for the
first `n` entries of `f` (the best index so far is replaced only when a
strictly smaller value is seen, which keeps the first minimum).
numpy.argmax is the same with the order reversed. -/

def argmin_upto {α : Type} [LinearOrder α] (f : ℕ → α) : ℕ → ℕ
  | 0 => 0
  | n + 1 =>
    let b := argmin_upto f n
    if f n < f b then n else b

theorem argmin_upto_lt {α : Type} [LinearOrder α] (f : ℕ → α) (n : ℕ) (hn : 0 < n) :
    argmin_upto f n < n := by
  induction n with
  | zero => exact absurd hn (lt_irrefl 0)
  | succ n ih =>
    simp only [argmin_upto]
    split
    · exact Nat.lt_succ_self n
    · rcases Nat.eq_zero_or_pos n with h0 | hpos
      · subst h0
        simp [argmin_upto]
      · exact Nat.lt_succ_of_lt (ih hpos)

theorem argmin_upto_le {α : Type} [LinearOrder α] (f : ℕ → α) (n k : ℕ) (hk : k < n) :
    f (argmin_upto f n) ≤ f k := by
  induction n with
  | zero => exact absurd hk (Nat.not_lt_zero k)
  | succ n ih =>
    show f (if f n < f (argmin_upto f n) then n else argmin_upto f n) ≤ f k
    by_cases h1 : f n < f (argmin_upto f n)
    · rw [if_pos h1]
      rcases Nat.lt_succ_iff_lt_or_eq.mp hk with h | h
      · exact le_trans (le_of_lt h1) (ih h)
      · subst h
        exact le_refl _
    · rw [if_neg h1]
      rcases Nat.lt_succ_iff_lt_or_eq.mp hk with h | h
      · exact ih h
      · subst h
        exact le_of_not_lt h1

def argmax_upto {α : Type} [LinearOrder α] (f : ℕ → α) (n : ℕ) : ℕ :=
  argmin_upto (fun i => OrderDual.toDual (f i)) n

theorem argmax_upto_lt {α : Type} [LinearOrder α] (f : ℕ → α) (n : ℕ) (hn : 0 < n) :
    argmax_upto f n < n :=
  argmin_upto_lt _ n hn

theorem argmax_upto_le {α : Type} [LinearOrder α] (f : ℕ → α) (n k : ℕ) (hk : k < n) :
    f k ≤ f (argmax_upto f n) :=
  argmin_upto_le (fun i => OrderDual.toDual (f i)) n k hk

/-! ### create_image.py: frame geometry -/

/-- create_image.get_scale_from_ratio: returns a pair of scale factors
that, multiplied with (width, height), comply with the given aspect
ratio.  Polymorphic over a linear ordered field so that it can be used
both at rational inputs and inside the real-valued frame drawing. -/
def get_scale_from_ratio {K : Type} [LinearOrderedField K] (r w h : K) : K × K :=
  let desired_width := h * r
  if w < desired_width then (desired_width / w, 1)
  else
    let desired_height := w / r
    if h < desired_height then (1, desired_height / h)
    else (1, 1)

/-- create_image.apply_scale_centered: scales the difference of a and b
by the given scale while keeping the mid point unchanged. -/
def apply_scale_centered {K : Type} [LinearOrderedField K] (scale a b : K) : K × K :=
  ((a * (1 + scale) + b * (1 - scale)) / 2, (a * (1 - scale) + b * (1 + scale)) / 2)

/-- C5: for every ratio r > 0 and positive width w and height h,
get_scale_from_ratio returns (sx, sy) with (w*sx)/(h*sy) = r, sx >= 1,
sy >= 1, and min sx sy = 1 (at most one factor enlarges). -/
theorem get_scale_from_ratio_spec (r w h : ℚ) (hr : 0 < r) (hw : 0 < w) (hh : 0 < h)
    (sx sy : ℚ) (hs : get_scale_from_ratio r w h = (sx, sy)) :
    w * sx / (h * sy) = r ∧ 1 ≤ sx ∧ 1 ≤ sy ∧ min sx sy = 1 := by
  unfold get_scale_from_ratio at hs
  simp only at hs
  by_cases h1 : w < h * r
  · rw [if_pos h1] at hs
    obtain ⟨hx, hy⟩ := Prod.mk.injEq .. ▸ hs
    subst hx; subst hy
    have hsx : 1 ≤ h * r / w := by
      rw [le_div_iff₀ hw]
      simpa using le_of_lt h1
    refine ⟨?_, hsx, le_refl 1, min_eq_right hsx⟩
    field_simp
  · rw [if_neg h1] at hs
    by_cases h2 : h < w / r
    · rw [if_pos h2] at hs
      obtain ⟨hx, hy⟩ := Prod.mk.injEq .. ▸ hs
      subst hx; subst hy
      have hsy : 1 ≤ w / r / h := by
        rw [le_div_iff₀ hh]
        simpa using le_of_lt h2
      refine ⟨?_, le_refl 1, hsy, min_eq_left hsy⟩
      field_simp
      ring
    · rw [if_neg h2] at hs
      obtain ⟨hx, hy⟩ := Prod.mk.injEq .. ▸ hs
      subst hx; subst hy
      have hge1 : h * r ≤ w := le_of_not_lt h1
      have hge2 : w / r ≤ h := le_of_not_lt h2
      have hge2' : w ≤ h * r := by
        rw [div_le_iff₀ hr] at hge2
        linarith
      have heq : w = h * r := le_antisymm hge2' hge1
      refine ⟨?_, le_refl 1, le_refl 1, min_self 1⟩
      rw [heq]
      field_simp

/-- Evaluation of get_scale_from_ratio at the concrete witness input. -/
theorem gsfr_eval_two : get_scale_from_ratio (2 : ℚ) 1 1 = (2, 1) := by
  norm_num [get_scale_from_ratio]

/-- C5 witness: concrete instance r = 2, w = 1, h = 1. -/
theorem get_scale_from_ratio_spec_witness :
    (1 : ℚ) * 2 / (1 * 1) = 2 ∧ (1 : ℚ) ≤ 2 ∧ (1 : ℚ) ≤ 1 ∧ min (2 : ℚ) 1 = 1 :=
  get_scale_from_ratio_spec 2 1 1 (by decide) (by decide) (by decide) 2 1 gsfr_eval_two

/-- C6: apply_scale_centered scales the interval about its unchanged
midpoint: y - x = s*(b - a) and (x + y)/2 = (a + b)/2, and at scale 1 it
is the identity. -/
theorem apply_scale_centered_spec (s a b : ℚ) :
    (apply_scale_centered s a b).2 - (apply_scale_centered s a b).1 = s * (b - a) ∧
    ((apply_scale_centered s a b).1 + (apply_scale_centered s a b).2) / 2 = (a + b) / 2 ∧
    apply_scale_centered 1 a b = (a, b) := by
  refine ⟨?_, ?_, ?_⟩
  · unfold apply_scale_centered
    ring
  · unfold apply_scale_centered
    ring
  · unfold apply_scale_centered
    norm_num

/-! ### find_orientations.py

find_angles builds the pairwise distance matrix of the positions scaled
component-wise by the weights (scipy.spatial.distance.pdist/squareform),
sets the diagonal to infinity (scipy.fill_diagonal), picks each row's
argmin as nearest neighbor, and yields the atan2 of the vector to that
neighbor in the unweighted coordinates.

The embedding stores the squared scaled distances in `WithTop` rationals
(the diagonal infinity is the top element).  The code compares the float
norms themselves; since the square root is strictly monotone on
non-negative numbers, the argmin index (including first-occurrence tie
breaking) is identical, and the theorems relate the chosen index to the
real Euclidean distances through the square root. -/

/-- Python math.atan2 y x: the angle of the vector (x, y) in radians,
in (-pi, pi], with atan2 0 0 = 0, defined piecewise from arctan. -/
noncomputable def atan2 (y x : ℝ) : ℝ :=
  if 0 < x then Real.arctan (y / x)
  else if x < 0 then
    (if 0 ≤ y then Real.arctan (y / x) + Real.pi else Real.arctan (y / x) - Real.pi)
  else
    (if 0 < y then Real.pi / 2 else if y < 0 then -(Real.pi / 2) else 0)

/-- The position tuples of the markers, as built at the top of
find_angles (find_orientations.py line 15). -/
def marker_positions (ms : List Marker) : List (ℚ × ℚ) :=
  ms.map fun m => (m.position.x, m.position.y)

/-- numpy array indexing positions[i] (all accesses are in bounds). -/
def pos_at (ps : List (ℚ × ℚ)) (i : ℕ) : ℚ × ℚ :=
  ps.getD i (0, 0)

/-- Squared Euclidean distance of two positions scaled component-wise by
(1/wx, 1/wy), as in pdist(positions / weights). -/
def scaled_sq_dist (wx wy : ℚ) (p q : ℚ × ℚ) : ℚ :=
  ((p.1 - q.1) / wx) ^ 2 + ((p.2 - q.2) / wy) ^ 2

/-- The squareform distance matrix after scipy.fill_diagonal(.., inf):
top on the diagonal, the squared scaled distance elsewhere. -/
def distance_matrix (ps : List (ℚ × ℚ)) (wx wy : ℚ) (i j : ℕ) : WithTop ℚ :=
  if i = j then ⊤ else (scaled_sq_dist wx wy (pos_at ps i) (pos_at ps j) : WithTop ℚ)

/-- nearest_neighbors[i] = scipy.argmin(distance_matrix, axis=1)[i]. -/
def nearest_neighbor (ps : List (ℚ × ℚ)) (wx wy : ℚ) (i : ℕ) : ℕ :=
  argmin_upto (distance_matrix ps wx wy i) ps.length

/-- find_orientations.find_angles.  An empty marker list is mapped to an
error: the code raises a numpy ValueError there (the empty position
array, of shape (0,), cannot be broadcast against the weight pair when
computing positions / weights).  Otherwise one angle per marker is
produced, the direction from each marker to its nearest neighbor. -/
noncomputable def find_angles (markers : List Marker) (wx wy : ℚ) : Except String (List ℝ) :=
  match markers with
  | [] => Except.error "find_angles: cannot broadcast an empty position array against the weight pair"
  | _ :: _ =>
    let ps := marker_positions markers
    Except.ok <| (List.range ps.length).map fun i =>
      let n := nearest_neighbor ps wx wy i
      let v := ((pos_at ps n).1 - (pos_at ps i).1, (pos_at ps n).2 - (pos_at ps i).2)
      atan2 (v.2 : ℝ) (v.1 : ℝ)

/-- The (unsquared) scaled Euclidean distance used by the code's pdist
call, related to `scaled_sq_dist` by the square root. -/
noncomputable def weighted_dist (wx wy : ℚ) (p q : ℚ × ℚ) : ℝ :=
  Real.sqrt ((scaled_sq_dist wx wy p q : ℚ) : ℝ)

/-- The orientation-assignment loop of find_orientations.main (lines
57-59): zip the marker list with the angle sequence and assign each
marker's orientation.  Markers beyond the zipped prefix are left
untouched, as with Python's zip. -/
def assign_orientations : List Marker → List ℝ → List Marker
  | ms, [] => ms
  | [], _ => []
  | m :: ms, a :: rest => { m with orientation := a } :: assign_orientations ms rest

theorem getD_map_range {β : Type} (f : ℕ → β) (n i : ℕ) (d : β) (hi : i < n) :
    ((List.range n).map f).getD i d = f i := by
  rw [List.getD_eq_getElem?_getD, List.getElem?_map, List.getElem?_range hi]
  rfl

theorem nearest_neighbor_lt (ps : List (ℚ × ℚ)) (wx wy : ℚ) (i : ℕ) (h : 0 < ps.length) :
    nearest_neighbor ps wx wy i < ps.length :=
  argmin_upto_lt _ _ h

theorem nearest_neighbor_ne (ps : List (ℚ × ℚ)) (wx wy : ℚ) (i : ℕ)
    (h2 : 2 ≤ ps.length) :
    nearest_neighbor ps wx wy i ≠ i := by
  intro heq
  have hj0lt : (if i = 0 then 1 else 0) < ps.length := by
    split
    · omega
    · omega
  have hj0ne : i ≠ (if i = 0 then 1 else 0) := by
    split
    · omega
    · omega
  have hle := argmin_upto_le (distance_matrix ps wx wy i) ps.length _ hj0lt
  rw [show argmin_upto (distance_matrix ps wx wy i) ps.length = nearest_neighbor ps wx wy i from rfl,
    heq] at hle
  rw [distance_matrix, if_pos rfl, distance_matrix, if_neg hj0ne] at hle
  exact WithTop.not_top_le_coe _ hle

theorem nearest_neighbor_min (ps : List (ℚ × ℚ)) (wx wy : ℚ) (i j : ℕ)
    (hj : j < ps.length) (hji : j ≠ i) (hne : nearest_neighbor ps wx wy i ≠ i) :
    weighted_dist wx wy (pos_at ps i) (pos_at ps (nearest_neighbor ps wx wy i)) ≤
      weighted_dist wx wy (pos_at ps i) (pos_at ps j) := by
  have hle := argmin_upto_le (distance_matrix ps wx wy i) ps.length j hj
  rw [show argmin_upto (distance_matrix ps wx wy i) ps.length = nearest_neighbor ps wx wy i from
    rfl] at hle
  rw [distance_matrix, if_neg (fun h => hne h.symm), distance_matrix,
    if_neg (fun h => hji h.symm)] at hle
  have hq := WithTop.coe_le_coe.mp hle
  exact Real.sqrt_le_sqrt (by exact_mod_cast hq)

/-- C8: for n >= 2 markers and nonzero weights, find_angles yields exactly
n angles in input order; angle i is the atan2 of the vector from marker i
to its nearest neighbor, where the neighbor minimizes the weighted
Euclidean distance over all other markers (self-distance is infinite) and
the angle itself is computed from the unweighted coordinates. -/
theorem find_angles_spec (markers : List Marker) (wx wy : ℚ)
    (h2 : 2 ≤ markers.length) (hwx : wx ≠ 0) (hwy : wy ≠ 0) :
    ∃ angles, find_angles markers wx wy = Except.ok angles ∧
      angles.length = markers.length ∧
      ∀ i, i < markers.length →
        nearest_neighbor (marker_positions markers) wx wy i < markers.length ∧
        nearest_neighbor (marker_positions markers) wx wy i ≠ i ∧
        (∀ j, j < markers.length → j ≠ i →
          weighted_dist wx wy (pos_at (marker_positions markers) i)
              (pos_at (marker_positions markers)
                (nearest_neighbor (marker_positions markers) wx wy i)) ≤
            weighted_dist wx wy (pos_at (marker_positions markers) i)
              (pos_at (marker_positions markers) j)) ∧
        angles.getD i 0 =
          atan2
            (((pos_at (marker_positions markers)
                  (nearest_neighbor (marker_positions markers) wx wy i)).2 -
                (pos_at (marker_positions markers) i).2 : ℚ) : ℝ)
            (((pos_at (marker_positions markers)
                  (nearest_neighbor (marker_positions markers) wx wy i)).1 -
                (pos_at (marker_positions markers) i).1 : ℚ) : ℝ) := by
  obtain ⟨m0, rest, rfl⟩ : ∃ m0 rest, markers = m0 :: rest := by
    cases markers with
    | nil => simp at h2
    | cons a l => exact ⟨a, l, rfl⟩
  have hlen : (marker_positions (m0 :: rest)).length = (m0 :: rest).length := by
    simp [marker_positions]
  refine ⟨_, rfl, ?_, ?_⟩
  · simp [marker_positions]
  · intro i hi
    have hi' : i < (marker_positions (m0 :: rest)).length := by rw [hlen]; exact hi
    have h2' : 2 ≤ (marker_positions (m0 :: rest)).length := by rw [hlen]; exact h2
    have hne := nearest_neighbor_ne (marker_positions (m0 :: rest)) wx wy i h2'
    refine ⟨?_, hne, ?_, ?_⟩
    · rw [← hlen]
      exact nearest_neighbor_lt _ wx wy i (by omega)
    · intro j hj hji
      exact nearest_neighbor_min _ wx wy i j (by rw [hlen]; exact hj) hji hne
    · rw [getD_map_range _ _ _ _ hi']

/-- C8 witness: two markers at (0, 0) and (1, 0) with unit weights. -/
theorem find_angles_spec_witness :
    2 ≤ ([⟨⟨0, 0⟩, 1, 0⟩, ⟨⟨1, 0⟩, 1, 0⟩] : List Marker).length ∧
    ∃ angles, find_angles [⟨⟨0, 0⟩, 1, 0⟩, ⟨⟨1, 0⟩, 1, 0⟩] 1 1 = Except.ok angles ∧
      angles.length = ([⟨⟨0, 0⟩, 1, 0⟩, ⟨⟨1, 0⟩, 1, 0⟩] : List Marker).length :=
  ⟨by decide, by
    obtain ⟨angles, h1, h2, _⟩ :=
      find_angles_spec [⟨⟨0, 0⟩, 1, 0⟩, ⟨⟨1, 0⟩, 1, 0⟩] 1 1 (by decide) (by decide) (by decide)
    exact ⟨angles, h1, h2⟩⟩

/-- C2 counterexample: a single-marker set does not make find_angles
fail; it silently yields the one angle 0 (the marker, at infinite
self-distance, is selected as its own nearest neighbor and the zero
vector gives atan2 0 0 = 0). -/
theorem find_angles_single_marker_counterexample :
    ([(⟨⟨0, 0⟩, 1, 0⟩ : Marker)]).length < 2 ∧
    find_angles [⟨⟨0, 0⟩, 1, 0⟩] 1 1 = Except.ok [0] := by
  refine ⟨by decide, ?_⟩
  show Except.ok _ = Except.ok _
  simp [marker_positions, nearest_neighbor, argmin_upto, pos_at, atan2]

/-- C2 amended: with zero markers find_angles fails (with the numpy
broadcasting error, not an explicit validation error); with one marker
it does not fail at all but silently yields the single angle 0. -/
theorem find_angles_few_markers (m : Marker) (wx wy : ℚ) :
    find_angles [] wx wy =
      Except.error "find_angles: cannot broadcast an empty position array against the weight pair" ∧
    find_angles [m] wx wy = Except.ok [0] := by
  refine ⟨rfl, ?_⟩
  show Except.ok _ = Except.ok _
  simp [marker_positions, nearest_neighbor, argmin_upto, pos_at, atan2, List.range_succ,
    List.range_zero]

/-- C10: the orientation-assignment step keeps the marker list's length
and order and every marker's position and radius unchanged; only the
orientation field is replaced. -/
theorem assign_orientations_spec (ms : List Marker) (angles : List ℝ) :
    (assign_orientations ms angles).length = ms.length ∧
    (assign_orientations ms angles).map Marker.position = ms.map Marker.position ∧
    (assign_orientations ms angles).map Marker.radius = ms.map Marker.radius := by
  induction ms generalizing angles with
  | nil => cases angles <;> simp [assign_orientations]
  | cons m ms ih =>
    cases angles with
    | nil => simp [assign_orientations]
    | cons a rest =>
      obtain ⟨h1, h2, h3⟩ := ih rest
      simp [assign_orientations, h1, h2, h3]

/-! ### extract_markers.py -/

/-- The marker record produced by create_marker_from_region: position
and radius only (the orientation is still unset at this stage).  The
radius is a Euclidean norm, hence a real number. -/
structure RegionMarker where
  position : ℚ × ℚ
  radius : ℝ

/-- scipy.where(lbl == i): the coordinates of the pixels of region i in
row-major scan order; the first coordinate is the row index, matching
the code where x_arr holds the row indices. -/
def region_pixels (lbl : List (List ℕ)) (i : ℕ) : List (ℕ × ℕ) :=
  (List.range lbl.length).flatMap fun r =>
    (List.range (lbl.getD r []).length).filterMap fun c =>
      if (lbl.getD r []).getD c 0 = i then some (r, c) else none

/-- m = scipy.mean(points, axis=1): the arithmetic mean of the region's
pixel coordinates. -/
def region_centroid (pts : List (ℕ × ℕ)) : ℚ × ℚ :=
  ((pts.map fun p => (p.1 : ℚ)).sum / pts.length, (pts.map fun p => (p.2 : ℚ)).sum / pts.length)

/-- max_index = scipy.argmax(distances) over the per-pixel distances. -/
def region_max_index (dsq : List ℚ) : ℕ :=
  argmax_upto (fun k => dsq.getD k 0) dsq.length

/-- The squared distances from each region pixel to the centroid.  The
code computes the Euclidean norms and argmaxes over them; since the
square root is strictly monotone on non-negative numbers, the argmax
index over the squared distances is the same (first-occurrence ties
included), and the radius is recovered by one square root at the
selected index. -/
def region_dist_sq (pts : List (ℕ × ℕ)) (mx my : ℚ) : List ℚ :=
  pts.map fun p => ((p.1 : ℚ) - mx) ^ 2 + ((p.2 : ℚ) - my) ^ 2

/-- extract_markers.create_marker_from_region: the centroid of region i
of the label image and the maximal pixel distance from it. -/
noncomputable def create_marker_from_region (lbl : List (List ℕ)) (i : ℕ) : RegionMarker :=
  let pts := region_pixels lbl i
  let m := region_centroid pts
  let dsq := region_dist_sq pts m.1 m.2
  { position := m, radius := Real.sqrt ((dsq.getD (region_max_index dsq) 0 : ℚ) : ℝ) }

/-- The binarization at the top of extract_markers (lines 36-44): the
image is inverted (img = 1 - img) and thresholded at 0.5, so a raw pixel
value v becomes foreground (1) exactly when 1 - v >= 0.5. -/
def binarize (img : List (List ℚ)) : List (List ℕ) :=
  img.map fun row => row.map fun v => if 1 - v < 1 / 2 then (0 : ℕ) else 1

/-- extract_markers.extract_markers after the external
scipy.ndimage.label call has produced the label grid and region count:
the code loops `for i in range(1, lbl_count)`, i.e. over region ids
1 .. lbl_count - 1. -/
noncomputable def extract_markers (lbl : List (List ℕ)) (lbl_count : ℕ) : List RegionMarker :=
  (List.range' 1 (lbl_count - 1)).map (create_marker_from_region lbl)

/-- Partial contract of the external scipy.ndimage.label call, enough
for the theorems about extract_markers: the label grid has the shape of
the binary image, a pixel is foreground iff its label lies in 1..count,
and every label in 1..count occurs somewhere. -/
def is_labeling (bin lbl : List (List ℕ)) (count : ℕ) : Prop :=
  lbl.length = bin.length ∧
  (∀ r < bin.length, (lbl.getD r []).length = (bin.getD r []).length) ∧
  (∀ r < bin.length, ∀ c < (bin.getD r []).length,
    ((bin.getD r []).getD c 0 = 1 ↔
      (1 ≤ (lbl.getD r []).getD c 0 ∧ (lbl.getD r []).getD c 0 ≤ count))) ∧
  (∀ k < count,
    ∃ r < bin.length, ∃ c < (bin.getD r []).length, (lbl.getD r []).getD c 0 = k + 1)

instance is_labeling_decidable (bin lbl : List (List ℕ)) (count : ℕ) :
    Decidable (is_labeling bin lbl count) := by
  unfold is_labeling
  exact inferInstance

/-- Euclidean distance from a pixel to a rational point. -/
noncomputable def pixel_dist (p : ℕ × ℕ) (c : ℚ × ℚ) : ℝ :=
  Real.sqrt ((((p.1 : ℚ) - c.1) ^ 2 + ((p.2 : ℚ) - c.2) ^ 2 : ℚ) : ℝ)

theorem dist_sq_le_max (pts : List (ℕ × ℕ)) (mx my : ℚ) (p : ℕ × ℕ) (hp : p ∈ pts) :
    ((p.1 : ℚ) - mx) ^ 2 + ((p.2 : ℚ) - my) ^ 2 ≤
      (region_dist_sq pts mx my).getD (region_max_index (region_dist_sq pts mx my)) 0 := by
  obtain ⟨k, hk, hget⟩ := List.getElem_of_mem hp
  have hk' : k < (region_dist_sq pts mx my).length := by
    simpa [region_dist_sq] using hk
  have hval : (region_dist_sq pts mx my).getD k 0 =
      ((p.1 : ℚ) - mx) ^ 2 + ((p.2 : ℚ) - my) ^ 2 := by
    rw [List.getD_eq_getElem _ _ hk']
    simp [region_dist_sq, hget]
  have hle := argmax_upto_le (fun k => (region_dist_sq pts mx my).getD k 0)
    (region_dist_sq pts mx my).length k hk'
  simp only at hle
  rw [hval] at hle
  exact hle

theorem max_dist_sq_mem (pts : List (ℕ × ℕ)) (mx my : ℚ) (hne : pts ≠ []) :
    ∃ p ∈ pts, ((p.1 : ℚ) - mx) ^ 2 + ((p.2 : ℚ) - my) ^ 2 =
      (region_dist_sq pts mx my).getD (region_max_index (region_dist_sq pts mx my)) 0 := by
  have hpos : 0 < (region_dist_sq pts mx my).length := by
    simpa [region_dist_sq] using List.length_pos.mpr hne
  have hmi : region_max_index (region_dist_sq pts mx my) < (region_dist_sq pts mx my).length :=
    argmax_upto_lt _ _ hpos
  have hmi' : region_max_index (region_dist_sq pts mx my) < pts.length := by
    simpa [region_dist_sq] using hmi
  refine ⟨pts.get ⟨region_max_index (region_dist_sq pts mx my), hmi'⟩, List.get_mem pts _ hmi', ?_⟩
  rw [List.getD_eq_getElem _ _ hmi]
  simp [region_dist_sq]

/-- C7: for every label grid and region id with a non-empty region,
create_marker_from_region returns the centroid (arithmetic mean of the
region's pixel coordinates) as position, and as radius the maximum
Euclidean distance from any pixel of the region to that centroid; a
single-pixel region yields radius 0. -/
theorem create_marker_from_region_spec (lbl : List (List ℕ)) (i : ℕ)
    (h : region_pixels lbl i ≠ []) :
    (create_marker_from_region lbl i).position =
      (((region_pixels lbl i).map fun p => (p.1 : ℚ)).sum / (region_pixels lbl i).length,
        ((region_pixels lbl i).map fun p => (p.2 : ℚ)).sum / (region_pixels lbl i).length) ∧
    (∀ p ∈ region_pixels lbl i,
      pixel_dist p (create_marker_from_region lbl i).position ≤
        (create_marker_from_region lbl i).radius) ∧
    (∃ p ∈ region_pixels lbl i,
      pixel_dist p (create_marker_from_region lbl i).position =
        (create_marker_from_region lbl i).radius) ∧
    (∀ p, region_pixels lbl i = [p] → (create_marker_from_region lbl i).radius = 0) := by
  refine ⟨rfl, ?_, ?_, ?_⟩
  · intro p hp
    have h1 := dist_sq_le_max (region_pixels lbl i)
      (region_centroid (region_pixels lbl i)).1 (region_centroid (region_pixels lbl i)).2 p hp
    refine Real.sqrt_le_sqrt ?_
    exact_mod_cast h1
  · obtain ⟨p, hp, hval⟩ := max_dist_sq_mem (region_pixels lbl i)
      (region_centroid (region_pixels lbl i)).1 (region_centroid (region_pixels lbl i)).2 h
    refine ⟨p, hp, ?_⟩
    show Real.sqrt _ = Real.sqrt _
    exact congrArg Real.sqrt (by exact_mod_cast hval)
  · intro p hp
    simp only [create_marker_from_region]
    rw [hp]
    have hd : region_dist_sq [p] (region_centroid [p]).1 (region_centroid [p]).2 = [0] := by
      simp [region_dist_sq, region_centroid]
    rw [hd]
    have hz : ∀ n, ([(0 : ℚ)]).getD n 0 = 0 := by
      intro n
      cases n <;> rfl
    rw [hz]
    simp

/-- C7 witness: the 1x1 label grid with the single pixel in region 1. -/
theorem create_marker_from_region_spec_witness :
    region_pixels [[1]] 1 ≠ [] ∧ (create_marker_from_region [[1]] 1).radius = 0 :=
  ⟨by decide, (create_marker_from_region_spec [[1]] 1 (by decide)).2.2.2 (0, 0) (by decide)⟩

/-- C1: the claim fails on the code.  The loop `for i in range(1,
lbl_count)` drops region lbl_count, so k regions yield k - 1 markers,
not k.  Concretely: the 3x3 image with a single black center pixel
binarizes to a mask with exactly one foreground region, yet every
labeling of that mask (count = 1 is forced by the scipy.ndimage.label
contract) makes extract_markers yield no marker at all.  The
all-background half of the claim does hold: zero regions give an empty
marker list without error. -/
theorem extract_markers_drops_last_region :
    binarize [[1, 1, 1], [1, 0, 1], [1, 1, 1]] = [[0, 0, 0], [0, 1, 0], [0, 0, 0]] ∧
    (∀ lbl count, is_labeling [[0, 0, 0], [0, 1, 0], [0, 0, 0]] lbl count →
      count = 1 ∧ extract_markers lbl count = []) ∧
    (∀ lbl, extract_markers lbl 0 = []) ∧
    (∀ lbl count, (extract_markers lbl count).length = count - 1) := by
  refine ⟨by norm_num [binarize], ?_, ?_, ?_⟩
  · intro lbl count hl
    obtain ⟨hlen, hshape, hfg, hocc⟩ := hl
    have hcount1 : count = 1 := by
      have hge : 1 ≤ count := by
        have h11 := (hfg 1 (by decide) 1 (by decide)).mp (by decide)
        omega
      have hle : count ≤ 1 := by
        by_contra hgt
        obtain ⟨r1, hr1, c1, hc1, hv1⟩ := hocc 0 (by omega)
        obtain ⟨r2, hr2, c2, hc2, hv2⟩ := hocc 1 (by omega)
        have hone : ∀ r < ([[0, 0, 0], [0, 1, 0], [0, 0, 0]] : List (List ℕ)).length,
            ∀ c < (([[0, 0, 0], [0, 1, 0], [0, 0, 0]] : List (List ℕ)).getD r []).length,
            (([[0, 0, 0], [0, 1, 0], [0, 0, 0]] : List (List ℕ)).getD r []).getD c 0 = 1 →
            r = 1 ∧ c = 1 := by decide
        have hb1 : (([[0, 0, 0], [0, 1, 0], [0, 0, 0]] : List (List ℕ)).getD r1 []).getD c1 0
            = 1 := (hfg r1 hr1 c1 hc1).mpr (by omega)
        have hb2 : (([[0, 0, 0], [0, 1, 0], [0, 0, 0]] : List (List ℕ)).getD r2 []).getD c2 0
            = 1 := (hfg r2 hr2 c2 hc2).mpr (by omega)
        obtain ⟨hr1', hc1'⟩ := hone r1 hr1 c1 hc1 hb1
        obtain ⟨hr2', hc2'⟩ := hone r2 hr2 c2 hc2 hb2
        subst hr1'
        subst hc1'
        subst hr2'
        subst hc2'
        omega
      omega
    subst hcount1
    exact ⟨rfl, rfl⟩
  · intro lbl
    rfl
  · intro lbl count
    simp [extract_markers]

/-- C1 witness: the forced labeling of the single-pixel mask, on which
extract_markers returns the empty marker list although one region
exists. -/
theorem extract_markers_drops_last_region_witness :
    is_labeling [[0, 0, 0], [0, 1, 0], [0, 0, 0]] [[0, 0, 0], [0, 1, 0], [0, 0, 0]] 1 ∧
    extract_markers [[0, 0, 0], [0, 1, 0], [0, 0, 0]] 1 = [] :=
  ⟨by decide,
    (extract_markers_drops_last_region.2.1 [[0, 0, 0], [0, 1, 0], [0, 0, 0]] 1 (by decide)).2⟩

/-! ### create_image.py

The canvas is modelled as the list of all path vertices stroked into it;
this determines its bounding box (pyx computes the bounding box of the
straight-line paths used here from their vertices).  The bounding box of
an empty canvas is undefined in pyx (the spec: "a marker set of size 0
has an undefined bounding box"), modelled as the value none, on which
draw_frame fails. -/

/-- create_image.fill_square: the four corners of the rotated square
stroked into the canvas for one marker (the code connects them with
lines and closes the path). -/
noncomputable def fill_square (pos : ℝ × ℝ) (radius angle : ℝ) : List (ℝ × ℝ) :=
  let vx := radius * Real.cos (angle + Real.pi / 4)
  let vy := radius * Real.sin (angle + Real.pi / 4)
  [(pos.1 + vx, pos.2 + vy), (pos.1 - vy, pos.2 + vx),
   (pos.1 - vx, pos.2 - vy), (pos.1 + vy, pos.2 - vx)]

/-- create_image.get_bounding_box: (left, right, bottom, top) of the
canvas content, none for an empty canvas. -/
noncomputable def get_bounding_box (canvas : List (ℝ × ℝ)) : Option (ℝ × ℝ × ℝ × ℝ) :=
  match canvas with
  | [] => none
  | p :: ps =>
    some (ps.foldl
      (fun acc q => (min acc.1 q.1, max acc.2.1 q.1, min acc.2.2.1 q.2, max acc.2.2.2 q.2))
      (p.1, p.1, p.2, p.2))

/-- create_image.draw_frame: scales the bounding box by the ratio and
margin scales (centered), strokes the frame rectangle (and the optional
outer rectangle offset by twice the line width).  The code's asserts
x0 <= x1 and y0 <= y1, and the undefined bounding box of an empty
canvas, are modelled as errors. -/
noncomputable def draw_frame (canvas : List (ℝ × ℝ)) (frame_ratio_opt : Option ℝ)
    (frame_scale : ℝ) (double_line : Bool) : Except String (List (ℝ × ℝ)) :=
  match get_bounding_box canvas with
  | none => Except.error "draw_frame: the bounding box of an empty canvas is undefined"
  | some (x0, x1, y0, y1) =>
    if x0 ≤ x1 ∧ y0 ≤ y1 then
      let s :=
        match frame_ratio_opt with
        | none => (frame_scale, frame_scale)
        | some r =>
          let rs := get_scale_from_ratio r (x1 - x0) (y1 - y0)
          (frame_scale * rs.1, frame_scale * rs.2)
      let px := apply_scale_centered s.1 x0 x1
      let py := apply_scale_centered s.2 y0 y1
      let line_width := min (px.2 - px.1) (py.2 - py.1) / 200
      let inner := [(px.1, py.1), (px.2, py.1), (px.2, py.2), (px.1, py.2)]
      let outer :=
        if double_line then
          [(px.1 - 2 * line_width, py.1 - 2 * line_width),
           (px.2 + 2 * line_width, py.1 - 2 * line_width),
           (px.2 + 2 * line_width, py.2 + 2 * line_width),
           (px.1 - 2 * line_width, py.2 + 2 * line_width)]
        else []
      Except.ok (canvas ++ inner ++ outer)
    else Except.error "draw_frame: assertion on the bounding box failed"

/-- mean_radius = scipy.mean of the radius list. -/
def mean_radius_of (markers : List Marker) : ℚ :=
  (markers.map Marker.radius).sum / markers.length

/-- The radius used to draw one marker: `r = mean_radius or m.radius`
in the code, where mean_radius is None when the mean-radius option is
off.  Python's `or` falls back to m.radius also when the computed mean
is the falsy float 0.0. -/
def used_radius (mean : Option ℚ) (m : Marker) : ℚ :=
  match mean with
  | none => m.radius
  | some mu => if mu = 0 then m.radius else mu

/-- The radii create_image's drawing loop passes to fill_square, one per
marker in order. -/
def drawn_radii (markers : List Marker) (use_mean_radius : Bool) : List ℚ :=
  markers.map (used_radius (if use_mean_radius then some (mean_radius_of markers) else none))

/-- create_image.create_image: strokes one rotated square per marker
into a fresh canvas, then draws the frame around the content. -/
noncomputable def create_image (markers : List Marker) (use_mean_radius : Bool)
    (frame_ratio_opt : Option ℝ) (frame_scale : ℝ) (double_frame_line : Bool) :
    Except String (List (ℝ × ℝ)) :=
  let mean := if use_mean_radius then some (mean_radius_of markers) else none
  let canvas := (markers.map fun m =>
    fill_square ((m.position.x : ℝ), (m.position.y : ℝ)) ((used_radius mean m : ℚ) : ℝ)
      m.orientation).flatten
  draw_frame canvas frame_ratio_opt frame_scale double_frame_line

/-- Rotation by 90 degrees about the origin, used to state that
consecutive square corners are separated by a quarter turn. -/
def rot90 (v : ℝ × ℝ) : ℝ × ℝ :=
  (-v.2, v.1)

theorem sqrt_radius_eq (r cs sn : ℝ) (h : cs ^ 2 + sn ^ 2 = 1) (hr : 0 ≤ r) (u v : ℝ)
    (huv : u ^ 2 + v ^ 2 = (r * cs) ^ 2 + (r * sn) ^ 2) :
    Real.sqrt (u ^ 2 + v ^ 2) = r := by
  have hsq : (r * cs) ^ 2 + (r * sn) ^ 2 = r ^ 2 := by
    rw [mul_pow, mul_pow, ← mul_add, h, mul_one]
  rw [huv, hsq, Real.sqrt_sq hr]

/-- C9: fill_square produces the closed quadrilateral with corners
centroid + r(cos t, sin t), centroid + r(-sin t, cos t),
centroid - r(cos t, sin t), centroid - r(-sin t, cos t) for
t = orientation + pi/4; every corner lies at distance r from the
centroid, consecutive corners arise from each other by a 90-degree
rotation about the centroid, and for orientation 0 the first corner lies
in the direction of angle pi/4. -/
theorem fill_square_spec (pos : ℝ × ℝ) (r a : ℝ) (hr : 0 ≤ r) :
    fill_square pos r a =
      [(pos.1 + r * Real.cos (a + Real.pi / 4), pos.2 + r * Real.sin (a + Real.pi / 4)),
       (pos.1 + r * -Real.sin (a + Real.pi / 4), pos.2 + r * Real.cos (a + Real.pi / 4)),
       (pos.1 - r * Real.cos (a + Real.pi / 4), pos.2 - r * Real.sin (a + Real.pi / 4)),
       (pos.1 - r * -Real.sin (a + Real.pi / 4), pos.2 - r * Real.cos (a + Real.pi / 4))] ∧
    (∀ p ∈ fill_square pos r a, Real.sqrt ((p.1 - pos.1) ^ 2 + (p.2 - pos.2) ^ 2) = r) ∧
    (∀ j : ℕ, j < 4 →
      rot90 (((fill_square pos r a).getD j (0, 0)).1 - pos.1,
          ((fill_square pos r a).getD j (0, 0)).2 - pos.2) =
        (((fill_square pos r a).getD ((j + 1) % 4) (0, 0)).1 - pos.1,
          ((fill_square pos r a).getD ((j + 1) % 4) (0, 0)).2 - pos.2)) ∧
    (a = 0 →
      (fill_square pos r a).getD 0 (0, 0) =
        (pos.1 + r * Real.cos (Real.pi / 4), pos.2 + r * Real.sin (Real.pi / 4))) := by
  refine ⟨?_, ?_, ?_, ?_⟩
  · simp only [fill_square, List.cons.injEq, Prod.mk.injEq]
    ring_nf
    simp
  · intro p hp
    have hcs := Real.cos_sq_add_sin_sq (a + Real.pi / 4)
    simp only [fill_square, List.mem_cons, List.not_mem_nil, or_false] at hp
    rcases hp with rfl | rfl | rfl | rfl
    · exact sqrt_radius_eq r _ _ hcs hr _ _ (by ring)
    · exact sqrt_radius_eq r _ _ hcs hr _ _ (by ring)
    · exact sqrt_radius_eq r _ _ hcs hr _ _ (by ring)
    · exact sqrt_radius_eq r _ _ hcs hr _ _ (by ring)
  · intro j hj
    interval_cases j <;>
      · simp only [fill_square, rot90, List.getD_cons_zero, List.getD_cons_succ,
          Prod.mk.injEq]
        norm_num
  · intro ha
    subst ha
    simp [fill_square]

/-- C9 witness: marker at the origin with radius 1 and orientation 0. -/
theorem fill_square_spec_witness :
    fill_square (0, 0) 1 0 =
      [((0 : ℝ) + 1 * Real.cos ((0 : ℝ) + Real.pi / 4),
          (0 : ℝ) + 1 * Real.sin ((0 : ℝ) + Real.pi / 4)),
       ((0 : ℝ) + 1 * -Real.sin ((0 : ℝ) + Real.pi / 4),
          (0 : ℝ) + 1 * Real.cos ((0 : ℝ) + Real.pi / 4)),
       ((0 : ℝ) - 1 * Real.cos ((0 : ℝ) + Real.pi / 4),
          (0 : ℝ) - 1 * Real.sin ((0 : ℝ) + Real.pi / 4)),
       ((0 : ℝ) - 1 * -Real.sin ((0 : ℝ) + Real.pi / 4),
          (0 : ℝ) - 1 * Real.cos ((0 : ℝ) + Real.pi / 4))] :=
  (fill_square_spec (0, 0) 1 0 zero_le_one).1

theorem bbox_foldl_ordered (ps : List (ℝ × ℝ)) :
    ∀ acc : ℝ × ℝ × ℝ × ℝ, acc.1 ≤ acc.2.1 → acc.2.2.1 ≤ acc.2.2.2 →
      (ps.foldl
          (fun acc q => (min acc.1 q.1, max acc.2.1 q.1, min acc.2.2.1 q.2, max acc.2.2.2 q.2))
          acc).1 ≤
        (ps.foldl
          (fun acc q => (min acc.1 q.1, max acc.2.1 q.1, min acc.2.2.1 q.2, max acc.2.2.2 q.2))
          acc).2.1 ∧
      (ps.foldl
          (fun acc q => (min acc.1 q.1, max acc.2.1 q.1, min acc.2.2.1 q.2, max acc.2.2.2 q.2))
          acc).2.2.1 ≤
        (ps.foldl
          (fun acc q => (min acc.1 q.1, max acc.2.1 q.1, min acc.2.2.1 q.2, max acc.2.2.2 q.2))
          acc).2.2.2 := by
  induction ps with
  | nil => exact fun acc h1 h2 => ⟨h1, h2⟩
  | cons q ps ih =>
    intro acc h1 h2
    simp only [List.foldl_cons]
    exact ih _ (le_trans (le_trans (min_le_left _ _) h1) (le_max_left _ _))
      (le_trans (le_trans (min_le_left _ _) h2) (le_max_left _ _))

theorem get_bounding_box_ordered (canvas : List (ℝ × ℝ)) (b : ℝ × ℝ × ℝ × ℝ)
    (hb : get_bounding_box canvas = some b) : b.1 ≤ b.2.1 ∧ b.2.2.1 ≤ b.2.2.2 := by
  cases canvas with
  | nil => simp [get_bounding_box] at hb
  | cons p ps =>
    simp only [get_bounding_box, Option.some.injEq] at hb
    rw [← hb]
    exact bbox_foldl_ordered ps (p.1, p.1, p.2, p.2) (le_refl _) (le_refl _)

theorem draw_frame_ok_of_ne_nil (canvas : List (ℝ × ℝ)) (h : canvas ≠ [])
    (fs : ℝ) (dl : Bool) : ∃ out, draw_frame canvas none fs dl = Except.ok out := by
  cases canvas with
  | nil => exact absurd rfl h
  | cons p ps =>
    rcases hbb : ps.foldl
        (fun acc q => (min acc.1 q.1, max acc.2.1 q.1, min acc.2.2.1 q.2, max acc.2.2.2 q.2))
        (p.1, p.1, p.2, p.2) with ⟨x0, x1, y0, y1⟩
    have hbox : get_bounding_box (p :: ps) = some (x0, x1, y0, y1) := by
      simp [get_bounding_box, hbb]
    have hord := get_bounding_box_ordered (p :: ps) (x0, x1, y0, y1) hbox
    unfold draw_frame
    rw [hbox]
    dsimp only
    rw [if_pos ⟨hord.1, hord.2⟩]
    exact ⟨_, rfl⟩

theorem markers_canvas_ne_nil (ms : List Marker) (mean : Option ℚ) (h : ms ≠ []) :
    (ms.map fun m =>
      fill_square ((m.position.x : ℝ), (m.position.y : ℝ)) ((used_radius mean m : ℚ) : ℝ)
        m.orientation).flatten ≠ [] := by
  cases ms with
  | nil => exact absurd rfl h
  | cons m rest => simp [fill_square]

/-- C3: rendering the empty marker set always fails with the distinct
empty-canvas error (the undefined bounding box of an empty pyx canvas
trips the asserts in draw_frame before any frame is produced), while
every non-empty marker set renders successfully with the default
no-ratio frame options, so no degenerate frame and no drawable document
is ever produced for zero markers. -/
theorem create_image_empty_rejected :
    (∀ umr fr fs dl, create_image [] umr fr fs dl =
      Except.error "draw_frame: the bounding box of an empty canvas is undefined") ∧
    (∀ ms umr fs dl, ms ≠ [] → ∃ c, create_image ms umr none fs dl = Except.ok c) := by
  constructor
  · intro umr fr fs dl
    rfl
  · intro ms umr fs dl hne
    simp only [create_image]
    exact draw_frame_ok_of_ne_nil _ (markers_canvas_ne_nil ms _ hne) fs dl

/-- C3 witness: one concrete marker renders; the empty set errors. -/
theorem create_image_empty_rejected_witness :
    create_image [] false none 1 false =
      Except.error "draw_frame: the bounding box of an empty canvas is undefined" ∧
    ∃ c, create_image [⟨⟨0, 0⟩, 1, 0⟩] false none 1 false = Except.ok c :=
  ⟨create_image_empty_rejected.1 false none 1 false,
    create_image_empty_rejected.2 [⟨⟨0, 0⟩, 1, 0⟩] false 1 false (by simp)⟩

theorem list_sum_zero_of_nonneg (l : List ℚ) (h0 : ∀ x ∈ l, 0 ≤ x) (hsum : l.sum = 0) :
    ∀ x ∈ l, x = 0 := by
  induction l with
  | nil => simp
  | cons a l ih =>
    simp only [List.sum_cons] at hsum
    have ha : 0 ≤ a := h0 a (by simp)
    have hl : 0 ≤ l.sum := List.sum_nonneg fun x hx => h0 x (by simp [hx])
    have ha0 : a = 0 := by linarith
    have hl0 : l.sum = 0 := by linarith
    intro x hx
    rcases List.mem_cons.mp hx with rfl | hx'
    · exact ha0
    · exact ih (fun y hy => h0 y (by simp [hy])) hl0 x hx'

/-- C4: with the mean-radius option enabled and a non-empty marker set
whose radii are non-negative (the data-model invariant on markers),
create_image passes the arithmetic mean of all radii to fill_square for
every marker, including when the mean is 0: a zero mean forces every
radius to be 0, so the falsy-float fallback in `mean_radius or m.radius`
still draws each marker with radius 0 = mean.  The marker records are
read only (the embedding of create_image is a function of the list and
never rebuilds a marker), so stored radii are unchanged. -/
theorem create_image_mean_radius (ms : List Marker) (hne : ms ≠ [])
    (hnn : ∀ m ∈ ms, 0 ≤ m.radius) :
    drawn_radii ms true = ms.map fun _ => mean_radius_of ms := by
  by_cases hz : mean_radius_of ms = 0
  · have hsum : (ms.map Marker.radius).sum = 0 := by
      have hlen : ((ms.length : ℚ)) ≠ 0 := by
        have : ms.length ≠ 0 := fun hc => hne (List.length_eq_zero.mp hc)
        exact_mod_cast this
      have := hz
      unfold mean_radius_of at this
      rcases div_eq_zero_iff.mp this with h | h
      · exact h
      · exact absurd h hlen
    have hall : ∀ m ∈ ms, m.radius = 0 := fun m hm =>
      list_sum_zero_of_nonneg (ms.map Marker.radius)
        (by
          intro x hx
          obtain ⟨m', hm', rfl⟩ := List.mem_map.mp hx
          exact hnn m' hm')
        hsum m.radius (List.mem_map_of_mem Marker.radius hm)
    unfold drawn_radii
    rw [if_pos rfl, hz]
    refine List.map_congr_left ?_
    intro m hm
    simp [used_radius, hall m hm]
  · unfold drawn_radii
    rw [if_pos rfl]
    refine List.map_congr_left ?_
    intro m _
    simp [used_radius, hz]

/-- C4 witness: two markers with radii 1 and 3; both are drawn with the
mean radius 2. -/
theorem create_image_mean_radius_witness :
    drawn_radii [⟨⟨0, 0⟩, 1, 0⟩, ⟨⟨3, 0⟩, 3, 0⟩] true =
      [mean_radius_of [⟨⟨0, 0⟩, 1, 0⟩, ⟨⟨3, 0⟩, 3, 0⟩],
        mean_radius_of [⟨⟨0, 0⟩, 1, 0⟩, ⟨⟨3, 0⟩, 3, 0⟩]] := by
  exact create_image_mean_radius [⟨⟨0, 0⟩, 1, 0⟩, ⟨⟨3, 0⟩, 3, 0⟩] (by simp) (by decide)

end PyMarkArt
